import Mathlib

/-!
Verification of the lavaplayer track-blob decoder of lavalink.rs
(`src/decoder.rs`, with the error taxonomy of `src/error.rs`).

The Rust code is embedded shallowly:

* A `Cursor<Vec<u8>>` is a byte list together with a position; every
  reading primitive is a state-passing function
  `ByteBuf -> Nat -> Except DecodeError (result, new position)`.
* `u8` values are `Fin 256`; multi-byte big-endian integers are plain
  naturals built from the bytes (they cannot overflow their Rust types,
  since 2 resp. 8 bytes always fit in `u16` resp. `u64`).
* Strings are kept as their UTF-8 byte lists; `String::from_utf8`
  becomes a UTF-8 validity check on the byte list.
* The error enum is reduced to the three variants the decoder can
  produce: `Error::Io` with kind `UnexpectedEof` (short reads),
  `Error::ParseUtf8` (invalid UTF-8) and `Error::Base64Error`
  (invalid base64 input to `decode_track_base64`).
-/

namespace Lavalink

/-- A byte of the input buffer (Rust `u8`). -/
abbrev Byte := Fin 256

/-- The input buffer (Rust `Vec<u8>`). -/
abbrev ByteBuf := List Byte

/-- Build a byte from a natural number (for writing concrete buffers). -/
def mkByte (n : Nat) : Byte := ⟨n % 256, Nat.mod_lt n (by omega)⟩

/-- A whole byte list from a list of naturals (for concrete buffers). -/
def byteList (l : List Nat) : ByteBuf := l.map mkByte

/-- The errors the decoder can surface, from `src/error.rs`:
`ioUnexpectedEof` is `Error::Io` carrying an `io::Error` of kind
`UnexpectedEof` (the only `io::Error` an in-memory `Cursor` read can
produce), `parseUtf8` is `Error::ParseUtf8`, and `base64Error` is
`Error::Base64Error`. -/
inductive DecodeError where
  | ioUnexpectedEof : DecodeError
  | parseUtf8 : DecodeError
  | base64Error : DecodeError
deriving DecidableEq

/-- A decoding step over a cursor: it receives the underlying buffer and
the current position and returns either an error or a value together
with the new position. -/
def DecM (α : Type) : Type := ByteBuf → Nat → Except DecodeError (α × Nat)

/-- Return a value without touching the cursor. -/
def dpure {α : Type} (a : α) : DecM α := fun _ pos => .ok (a, pos)

/-- Fail with the given error. -/
def dthrow {α : Type} (e : DecodeError) : DecM α := fun _ _ => .error e

/-- Sequencing of decoding steps: the Rust `?` operator. -/
def dbind {α β : Type} (m : DecM α) (f : α → DecM β) : DecM β := fun buf pos =>
  match m buf pos with
  | .error e => .error e
  | .ok (a, p) => f a buf p

/-- `std::io::Read::read_exact` into a buffer of `n` bytes on a
`Cursor<Vec<u8>>`: with an empty target buffer it succeeds without
looking at the cursor; otherwise it needs `n` bytes to remain (the
`Cursor` `Read` impl serves bytes from `min(pos, len)`), fills the
target with the bytes at the current position and advances by `n`,
and fails with an `UnexpectedEof` io error when fewer than `n`
bytes remain. -/
def readExact (n : Nat) : DecM ByteBuf := fun buf pos =>
  if n = 0 then .ok ([], pos)
  else if pos + n ≤ buf.length then .ok ((buf.drop pos).take n, pos + n)
  else .error .ioUnexpectedEof

/-- `ReadBytesExt::read_u8`: read the single byte at the current
position, or fail with `UnexpectedEof` when none remains. -/
def read_u8 : DecM Byte := fun buf pos =>
  if h : pos < buf.length then .ok (buf[pos], pos + 1)
  else .error .ioUnexpectedEof

/-- Big-endian value of a byte list (most significant byte first). -/
def beVal (bs : ByteBuf) : Nat := bs.foldl (fun acc b => acc * 256 + b.val) 0

/-- `ReadBytesExt::read_u16::<BE>`: read two bytes, big endian. -/
def read_u16_be : DecM Nat := dbind (readExact 2) (fun bs => dpure (beVal bs))

/-- `ReadBytesExt::read_u64::<BE>`: read eight bytes, big endian. -/
def read_u64_be : DecM Nat := dbind (readExact 8) (fun bs => dpure (beVal bs))

/-- The `move_cursor!` macro of `src/decoder.rs`: reads the current
position and sets the position to `pos + n`, with no bounds check of
any kind. -/
def move_cursor (n : Nat) : DecM Unit := fun _ pos => .ok ((), pos + n)

/-- Whether a continuation byte is in `0x80 ..= 0xBF`. -/
def utf8Cont (b : Byte) : Bool := decide (0x80 ≤ b.val ∧ b.val ≤ 0xBF)

/-- Allowed range of the first continuation byte of a three-byte
sequence, which depends on the lead byte (excluding overlong encodings
and surrogates, as Rust `String::from_utf8` does). -/
def utf8Cont3 (lead b : Byte) : Bool :=
  if lead.val = 0xE0 then decide (0xA0 ≤ b.val ∧ b.val ≤ 0xBF)
  else if lead.val = 0xED then decide (0x80 ≤ b.val ∧ b.val ≤ 0x9F)
  else utf8Cont b

/-- Allowed range of the first continuation byte of a four-byte
sequence, which depends on the lead byte (excluding overlong encodings
and code points above U+10FFFF, as Rust `String::from_utf8` does). -/
def utf8Cont4 (lead b : Byte) : Bool :=
  if lead.val = 0xF0 then decide (0x90 ≤ b.val ∧ b.val ≤ 0xBF)
  else if lead.val = 0xF4 then decide (0x80 ≤ b.val ∧ b.val ≤ 0x8F)
  else utf8Cont b

/-- UTF-8 validity of a byte list, following the checks performed by
Rust `String::from_utf8` (RFC 3629: no overlong forms, no surrogates,
nothing above U+10FFFF). -/
def isValidUtf8 : ByteBuf → Bool
  | [] => true
  | b :: rest =>
    if b.val ≤ 0x7F then isValidUtf8 rest
    else if 0xC2 ≤ b.val ∧ b.val ≤ 0xDF then
      match rest with
      | b1 :: rest2 => utf8Cont b1 && isValidUtf8 rest2
      | [] => false
    else if 0xE0 ≤ b.val ∧ b.val ≤ 0xEF then
      match rest with
      | b1 :: b2 :: rest3 => utf8Cont3 b b1 && utf8Cont b2 && isValidUtf8 rest3
      | _ => false
    else if 0xF0 ≤ b.val ∧ b.val ≤ 0xF4 then
      match rest with
      | b1 :: b2 :: b3 :: rest4 =>
        utf8Cont4 b b1 && utf8Cont b2 && utf8Cont b3 && isValidUtf8 rest4
      | _ => false
    else false

/-- `read_string` of `src/decoder.rs`: a 16-bit big-endian length
prefix, then that many bytes, decoded as UTF-8 (`String::from_utf8`
keeps the byte list and only checks validity). -/
def read_string : DecM ByteBuf :=
  dbind read_u16_be (fun size =>
  dbind (readExact size) (fun buf =>
  if isValidUtf8 buf then dpure buf else dthrow .parseUtf8))

/-- Holds decoded track information from a lavaplayer track blob
(`DecodedTrack` of `src/decoder.rs`); string fields are kept as their
UTF-8 byte lists. -/
structure DecodedTrack where
  version : Nat
  title : ByteBuf
  author : ByteBuf
  length : Nat
  identifier : ByteBuf
  stream : Bool
  url : Option ByteBuf
  source : ByteBuf
deriving DecidableEq

/-- `TRACK_INFO_VERSIONED` of `src/decoder.rs`. -/
def TRACK_INFO_VERSIONED : Nat := 1

/-- The flags computation of `_decode_track`:
`((i64::from(value) & 0xC000_0000) >> 30) as i32` applied to the first
byte `value`.  All quantities stay non-negative and far below `i64`
range, so the `i64` bit operations coincide with the `Nat` ones. -/
def flagsOf (value : Byte) : Nat := (Nat.land value.val 0xC0000000) >>> 30

/-- The `version` computation of `_decode_track`:
`match flags & TRACK_INFO_VERSIONED { 0 => 1, _ => cursor.read_u8()? }`. -/
def readVersion (flags : Nat) : DecM Nat :=
  match Nat.land flags TRACK_INFO_VERSIONED with
  | 0 => dpure 1
  | _ => dbind read_u8 (fun b => dpure b.val)

/-- The stream-flag computation of `_decode_track`:
`cursor.read_u8()? == 1`. -/
def readStream : DecM Bool :=
  dbind read_u8 (fun b => dpure (decide (b.val = 1)))

/-- The has-url byte and url branch of `_decode_track`
(lines 76-84): `cursor.read_u8()? == 1`, then either a string url, or
one byte read as a skip size followed by a cursor move of that size
and no url. -/
def readUrlField : DecM (Option ByteBuf) :=
  dbind read_u8 (fun hasUrl =>
  if hasUrl.val = 1 then
    dbind read_string (fun s => dpure (some s))
  else
    dbind read_u8 (fun size =>
    dbind (move_cursor size.val) (fun _ =>
    dpure none)))

/-- The fields of `_decode_track` read before the has-url byte, in
source order: header byte, 2-byte move, version, 2-byte move, title,
author, length, identifier, stream flag. -/
structure BodyVals where
  version : Nat
  title : ByteBuf
  author : ByteBuf
  length : Nat
  identifier : ByteBuf
  stream : Bool
deriving DecidableEq

/-- The part of `_decode_track` up to and including the stream byte
(lines 55-75). -/
def decodeBody : DecM BodyVals :=
  dbind read_u8 (fun value =>
  dbind (move_cursor 2) (fun _ =>
  dbind (readVersion (flagsOf value)) (fun version =>
  dbind (move_cursor 2) (fun _ =>
  dbind read_string (fun title =>
  dbind read_string (fun author =>
  dbind read_u64_be (fun length =>
  dbind read_string (fun identifier =>
  dbind readStream (fun stream =>
  dpure (BodyVals.mk version title author length identifier stream))))))))))

/-- The whole of `_decode_track` as a cursor computation: the body
fields, then the url branch, then the source string, then the
`DecodedTrack` construction. -/
def decodeTrackAux : DecM DecodedTrack :=
  dbind decodeBody (fun body =>
  dbind readUrlField (fun url =>
  dbind read_string (fun source =>
  dpure (DecodedTrack.mk body.version body.title body.author body.length
    body.identifier body.stream url source))))

/-- `_decode_track` of `src/decoder.rs`: run the cursor computation on
a fresh cursor (position 0) over the input and return the track. -/
def _decode_track (input : ByteBuf) : Except DecodeError DecodedTrack :=
  match decodeTrackAux input 0 with
  | .error e => .error e
  | .ok (t, _) => .ok t

/-- `decode_track` of `src/decoder.rs`; the `impl Into<Vec<u8>>`
conversion is the identity on an already-binary buffer. -/
def decode_track (input : ByteBuf) : Except DecodeError DecodedTrack :=
  _decode_track input

/-- Value of a base64 alphabet character (standard alphabet `A-Z`,
`a-z`, `0-9`, `+`, `/`), modelling the `base64` crate's standard
character set. -/
def b64Val (c : Char) : Option Nat :=
  if 65 ≤ c.toNat ∧ c.toNat ≤ 90 then some (c.toNat - 65)
  else if 97 ≤ c.toNat ∧ c.toNat ≤ 122 then some (c.toNat - 97 + 26)
  else if 48 ≤ c.toNat ∧ c.toNat ≤ 57 then some (c.toNat - 48 + 52)
  else if c.toNat = 43 then some 62
  else if c.toNat = 47 then some 63
  else none

/-- Strip the trailing `=` padding (at most two characters) before
interpreting base64 data. -/
def b64Strip (cs : List Char) : List Char :=
  match cs.reverse with
  | '=' :: '=' :: rest => rest.reverse
  | '=' :: rest => rest.reverse
  | _ => cs

/-- Translate every character to its sextet value; any character
outside the alphabet makes the whole input invalid. -/
def b64Sextets : List Char → Option (List Nat)
  | [] => some []
  | c :: rest =>
    match b64Val c, b64Sextets rest with
    | some v, some vs => some (v :: vs)
    | _, _ => none

/-- Reassemble bytes from sextets, big-endian within each quad; a
trailing group of one sextet is invalid, and trailing groups of two or
three sextets must have their spare low bits zero. -/
def b64Bytes : List Nat → Option ByteBuf
  | [] => some []
  | [_] => none
  | [a, b] => if b % 16 = 0 then some [mkByte (a * 4 + b / 16)] else none
  | [a, b, c] =>
    if c % 4 = 0 then some [mkByte (a * 4 + b / 16), mkByte ((b % 16) * 16 + c / 4)]
    else none
  | a :: b :: c :: d :: rest =>
    match b64Bytes rest with
    | some bs =>
      some (mkByte (a * 4 + b / 16) :: mkByte ((b % 16) * 16 + c / 4) ::
        mkByte ((c % 4) * 64 + d) :: bs)
    | none => none

/-- Model of the external `base64::decode` used by
`_decode_track_base64` (standard alphabet with `=` padding); `none`
models `Err(DecodeError)` of the base64 crate. -/
def base64_decode (cs : List Char) : Option ByteBuf :=
  match b64Sextets (b64Strip cs) with
  | some vs => b64Bytes vs
  | none => none

/-- `_decode_track_base64` of `src/decoder.rs`:
`decode_track(::base64::decode(input)?)`, where the `?` converts the
base64 crate error into `Error::Base64Error`. -/
def _decode_track_base64 (input : List Char) : Except DecodeError DecodedTrack :=
  match base64_decode input with
  | none => .error .base64Error
  | some bs => decode_track bs

/-- `decode_track_base64` of `src/decoder.rs` (the `impl AsRef<str>`
conversion is the identity on the character list). -/
def decode_track_base64 (input : List Char) : Except DecodeError DecodedTrack :=
  _decode_track_base64 input

/-- Equality of decode results is decidable (used to evaluate the
decoder on concrete buffers inside proofs). -/
instance {α : Type} [DecidableEq α] : DecidableEq (Except DecodeError α) := fun a b =>
  match a, b with
  | .error e1, .error e2 =>
    if h : e1 = e2 then isTrue (by rw [h]) else isFalse (by intro hc; cases hc; exact h rfl)
  | .ok v1, .ok v2 =>
    if h : v1 = v2 then isTrue (by rw [h]) else isFalse (by intro hc; cases hc; exact h rfl)
  | .error _, .ok _ => isFalse (by intro hc; cases hc)
  | .ok _, .error _ => isFalse (by intro hc; cases hc)

/-! ### Generic properties of cursor computations -/

/-- The cursor never moves backwards on a successful step. -/
def Mono {α : Type} (m : DecM α) : Prop :=
  ∀ buf pos a p, m buf pos = .ok (a, p) → pos ≤ p

/-- Started past the end of the buffer, a step either fails with the
`UnexpectedEof` io error or succeeds without moving the cursor
backwards (the latter only happens for pure steps, cursor moves and
zero-byte reads). -/
def PastEnd {α : Type} (m : DecM α) : Prop :=
  ∀ buf pos, buf.length < pos →
    m buf pos = .error .ioUnexpectedEof ∨ ∃ a p, m buf pos = .ok (a, p) ∧ pos ≤ p

/-- A successful step is preserved verbatim by appending bytes to the
buffer. -/
def Extends {α : Type} (m : DecM α) : Prop :=
  ∀ buf pos a p, m buf pos = .ok (a, p) → ∀ ext, m (buf ++ ext) pos = .ok (a, p)

/-- Truncating the buffer at or above the final position of a
successful step preserves the step; truncating strictly below it makes
the step fail with `UnexpectedEof` or end past the truncated length. -/
def Trunc {α : Type} (m : DecM α) : Prop :=
  ∀ buf pos a p, m buf pos = .ok (a, p) → ∀ n, n ≤ buf.length →
    (p ≤ n → m (buf.take n) pos = .ok (a, p)) ∧
    (n < p → m (buf.take n) pos = .error .ioUnexpectedEof ∨
      ∃ b q, m (buf.take n) pos = .ok (b, q) ∧ n < q)

/-- A step is invariant under shifting buffer and position by a common
prepended chunk. -/
def Shifts {α : Type} (m : DecM α) : Prop :=
  ∀ pre buf pos,
    m (pre ++ buf) (pre.length + pos) =
      match m buf pos with
      | .error e => .error e
      | .ok (a, p) => .ok (a, pre.length + p)

/-- Every error a step produces is a short read or invalid UTF-8,
never a base64 error. -/
def ErrsIo {α : Type} (m : DecM α) : Prop :=
  ∀ buf pos e, m buf pos = .error e →
    e = DecodeError.ioUnexpectedEof ∨ e = DecodeError.parseUtf8

/-! ### Basic rewriting lemmas for the combinators -/

theorem dbind_eq_of_ok {α β : Type} {m : DecM α} {f : α → DecM β} {buf : ByteBuf}
    {pos : Nat} {a : α} {p : Nat} (h : m buf pos = .ok (a, p)) :
    dbind m f buf pos = f a buf p := by
  unfold dbind
  rw [h]

theorem dbind_eq_of_err {α β : Type} {m : DecM α} {f : α → DecM β} {buf : ByteBuf}
    {pos : Nat} {e : DecodeError} (h : m buf pos = .error e) :
    dbind m f buf pos = .error e := by
  unfold dbind
  rw [h]

theorem dbind_ok {α β : Type} {m : DecM α} {f : α → DecM β} {buf : ByteBuf}
    {pos : Nat} {r : β × Nat} :
    dbind m f buf pos = .ok r ↔ ∃ a p, m buf pos = .ok (a, p) ∧ f a buf p = .ok r := by
  constructor
  · intro h
    cases hm : m buf pos with
    | error e => rw [dbind_eq_of_err hm] at h; cases h
    | ok ap =>
      obtain ⟨a, p⟩ := ap
      rw [dbind_eq_of_ok hm] at h
      exact ⟨a, p, rfl, h⟩
  · rintro ⟨a, p, hm, hf⟩
    rw [dbind_eq_of_ok hm]
    exact hf

theorem dpure_eq {α : Type} (a : α) (buf : ByteBuf) (pos : Nat) :
    dpure a buf pos = .ok (a, pos) := rfl

/-! ### The generic properties for `dpure`, `dthrow` and branches -/

theorem mono_dpure {α : Type} (a : α) : Mono (dpure a) := by
  intro buf pos b p h
  simp only [dpure, Except.ok.injEq, Prod.mk.injEq] at h
  exact le_of_eq h.2

theorem pastEnd_dpure {α : Type} (a : α) : PastEnd (dpure a) := by
  intro buf pos _
  exact Or.inr ⟨a, pos, rfl, le_refl pos⟩

theorem extends_dpure {α : Type} (a : α) : Extends (dpure a) := by
  intro buf pos b p h ext
  exact h

theorem trunc_dpure {α : Type} (a : α) : Trunc (dpure a) := by
  intro buf pos b p h n _
  simp only [dpure, Except.ok.injEq, Prod.mk.injEq] at h
  constructor
  · intro _
    simp only [dpure, Except.ok.injEq, Prod.mk.injEq]
    exact h
  · intro hn
    exact Or.inr ⟨b, p, by simp only [dpure, Except.ok.injEq, Prod.mk.injEq]; exact h, hn⟩

theorem shifts_dpure {α : Type} (a : α) : Shifts (dpure a) := by
  intro pre buf pos
  rfl

theorem errsIo_dpure {α : Type} (a : α) : ErrsIo (dpure a) := by
  intro buf pos e h
  cases h

theorem mono_dthrow {α : Type} (e : DecodeError) : Mono (dthrow (α := α) e) := by
  intro buf pos b p h
  cases h

theorem extends_dthrow {α : Type} (e : DecodeError) : Extends (dthrow (α := α) e) := by
  intro buf pos b p h
  cases h

theorem trunc_dthrow {α : Type} (e : DecodeError) : Trunc (dthrow (α := α) e) := by
  intro buf pos b p h
  cases h

theorem shifts_dthrow {α : Type} (e : DecodeError) : Shifts (dthrow (α := α) e) := by
  intro pre buf pos
  rfl

theorem errsIo_dthrow_utf8 {α : Type} : ErrsIo (dthrow (α := α) .parseUtf8) := by
  intro buf pos e h
  cases h
  exact Or.inr rfl

theorem mono_ite {α : Type} (c : Prop) [Decidable c] {m1 m2 : DecM α}
    (h1 : Mono m1) (h2 : Mono m2) : Mono (if c then m1 else m2) := by
  by_cases hc : c
  · rw [if_pos hc]; exact h1
  · rw [if_neg hc]; exact h2

theorem pastEnd_ite {α : Type} (c : Prop) [Decidable c] {m1 m2 : DecM α}
    (h1 : PastEnd m1) (h2 : PastEnd m2) : PastEnd (if c then m1 else m2) := by
  by_cases hc : c
  · rw [if_pos hc]; exact h1
  · rw [if_neg hc]; exact h2

theorem extends_ite {α : Type} (c : Prop) [Decidable c] {m1 m2 : DecM α}
    (h1 : Extends m1) (h2 : Extends m2) : Extends (if c then m1 else m2) := by
  by_cases hc : c
  · rw [if_pos hc]; exact h1
  · rw [if_neg hc]; exact h2

theorem trunc_ite {α : Type} (c : Prop) [Decidable c] {m1 m2 : DecM α}
    (h1 : Trunc m1) (h2 : Trunc m2) : Trunc (if c then m1 else m2) := by
  by_cases hc : c
  · rw [if_pos hc]; exact h1
  · rw [if_neg hc]; exact h2

theorem shifts_ite {α : Type} (c : Prop) [Decidable c] {m1 m2 : DecM α}
    (h1 : Shifts m1) (h2 : Shifts m2) : Shifts (if c then m1 else m2) := by
  by_cases hc : c
  · rw [if_pos hc]; exact h1
  · rw [if_neg hc]; exact h2

theorem errsIo_ite {α : Type} (c : Prop) [Decidable c] {m1 m2 : DecM α}
    (h1 : ErrsIo m1) (h2 : ErrsIo m2) : ErrsIo (if c then m1 else m2) := by
  by_cases hc : c
  · rw [if_pos hc]; exact h1
  · rw [if_neg hc]; exact h2

/-! ### Closure of the generic properties under sequencing -/

theorem mono_dbind {α β : Type} {m : DecM α} {f : α → DecM β}
    (hm : Mono m) (hf : ∀ a, Mono (f a)) : Mono (dbind m f) := by
  intro buf pos b p h
  rcases dbind_ok.mp h with ⟨a, q, hma, hfa⟩
  exact le_trans (hm _ _ _ _ hma) (hf a _ _ _ _ hfa)

theorem pastEnd_dbind {α β : Type} {m : DecM α} {f : α → DecM β}
    (hm : PastEnd m) (hf : ∀ a, PastEnd (f a)) : PastEnd (dbind m f) := by
  intro buf pos hpos
  rcases hm buf pos hpos with h | ⟨a, p, hok, hle⟩
  · exact Or.inl (dbind_eq_of_err h)
  · rw [dbind_eq_of_ok hok]
    rcases hf a buf p (lt_of_lt_of_le hpos hle) with h | ⟨b, q, hok2, hle2⟩
    · exact Or.inl h
    · exact Or.inr ⟨b, q, hok2, le_trans hle hle2⟩

theorem extends_dbind {α β : Type} {m : DecM α} {f : α → DecM β}
    (hm : Extends m) (hf : ∀ a, Extends (f a)) : Extends (dbind m f) := by
  intro buf pos b p h ext
  rcases dbind_ok.mp h with ⟨a, q, hma, hfa⟩
  rw [dbind_eq_of_ok (hm _ _ _ _ hma ext)]
  exact hf a _ _ _ _ hfa ext

theorem errsIo_dbind {α β : Type} {m : DecM α} {f : α → DecM β}
    (hm : ErrsIo m) (hf : ∀ a, ErrsIo (f a)) : ErrsIo (dbind m f) := by
  intro buf pos e h
  cases hmb : m buf pos with
  | error e2 =>
    rw [dbind_eq_of_err hmb] at h
    cases h
    exact hm _ _ _ hmb
  | ok ap =>
    have hm2 : m buf pos = .ok (ap.1, ap.2) := by rw [hmb]
    rw [dbind_eq_of_ok hm2] at h
    exact hf ap.1 _ _ _ h

theorem shifts_dbind {α β : Type} {m : DecM α} {f : α → DecM β}
    (hm : Shifts m) (hf : ∀ a, Shifts (f a)) : Shifts (dbind m f) := by
  intro pre buf pos
  cases hmb : m buf pos with
  | error e =>
    have hs := hm pre buf pos
    rw [hmb] at hs
    rw [dbind_eq_of_err hmb, dbind_eq_of_err hs]
  | ok ap =>
    have hm2 : m buf pos = .ok (ap.1, ap.2) := by rw [hmb]
    have hs := hm pre buf pos
    rw [hm2] at hs
    rw [dbind_eq_of_ok hm2, dbind_eq_of_ok hs]
    exact hf ap.1 pre buf ap.2

theorem trunc_dbind {α β : Type} {m : DecM α} {f : α → DecM β}
    (hm : Trunc m) (hmono : ∀ a, Mono (f a)) (hf : ∀ a, Trunc (f a))
    (hpe : ∀ buf pos a p, m buf pos = .ok (a, p) → buf.length < p → PastEnd (f a)) :
    Trunc (dbind m f) := by
  intro buf pos c p2 h n hn
  rcases dbind_ok.mp h with ⟨a, p1, hma, hfa⟩
  have h1 := hm _ _ _ _ hma n hn
  have hlen : (buf.take n).length = n := by
    rw [List.length_take]
    exact min_eq_left hn
  constructor
  · intro hp2n
    have hp1 : p1 ≤ n := le_trans (hmono a _ _ _ _ hfa) hp2n
    rw [dbind_eq_of_ok (h1.1 hp1)]
    exact ((hf a) _ _ _ _ hfa n hn).1 hp2n
  · intro hnp2
    by_cases hp1 : p1 ≤ n
    · rw [dbind_eq_of_ok (h1.1 hp1)]
      exact ((hf a) _ _ _ _ hfa n hn).2 hnp2
    · push_neg at hp1
      rcases h1.2 hp1 with herr | ⟨b, q, hok, hq⟩
      · exact Or.inl (dbind_eq_of_err herr)
      · have hpe2 := hpe _ _ _ _ hok (by rw [hlen]; exact hq)
        rw [dbind_eq_of_ok hok]
        rcases hpe2 (buf.take n) q (by rw [hlen]; exact hq) with herr | ⟨c2, q2, hok2, hle2⟩
        · exact Or.inl herr
        · exact Or.inr ⟨c2, q2, hok2, lt_of_lt_of_le hq hle2⟩

/-! ### The generic properties for the reading primitives -/

theorem length_take_of_le {α : Type} {l : List α} {n : Nat} (h : n ≤ l.length) :
    (l.take n).length = n := by
  rw [List.length_take]
  exact min_eq_left h

theorem readExact_zero (buf : ByteBuf) (pos : Nat) :
    readExact 0 buf pos = .ok ([], pos) := rfl

theorem readExact_ok_of_le {buf : ByteBuf} {pos k : Nat} (hk : k ≠ 0)
    (h : pos + k ≤ buf.length) :
    readExact k buf pos = .ok ((buf.drop pos).take k, pos + k) := by
  unfold readExact
  rw [if_neg hk, if_pos h]

theorem readExact_err_of_lt {buf : ByteBuf} {pos k : Nat} (hk : k ≠ 0)
    (h : buf.length < pos + k) :
    readExact k buf pos = .error .ioUnexpectedEof := by
  unfold readExact
  rw [if_neg hk, if_neg (by omega)]

theorem readExact_ok_elim {k : Nat} {buf : ByteBuf} {pos : Nat} {s : ByteBuf} {p : Nat}
    (h : readExact k buf pos = .ok (s, p)) :
    (k = 0 ∧ s = [] ∧ p = pos) ∨
    (k ≠ 0 ∧ pos + k ≤ buf.length ∧ s = (buf.drop pos).take k ∧ p = pos + k) := by
  unfold readExact at h
  by_cases h0 : k = 0
  · rw [if_pos h0] at h
    simp only [Except.ok.injEq, Prod.mk.injEq] at h
    exact Or.inl ⟨h0, h.1.symm, h.2.symm⟩
  · rw [if_neg h0] at h
    by_cases h1 : pos + k ≤ buf.length
    · rw [if_pos h1] at h
      simp only [Except.ok.injEq, Prod.mk.injEq] at h
      exact Or.inr ⟨h0, h1, h.1.symm, h.2.symm⟩
    · rw [if_neg h1] at h
      cases h

theorem mono_readExact (k : Nat) : Mono (readExact k) := by
  intro buf pos a p h
  rcases readExact_ok_elim h with ⟨-, -, hp⟩ | ⟨-, -, -, hp⟩ <;> omega

theorem pastEnd_readExact (k : Nat) : PastEnd (readExact k) := by
  intro buf pos hpos
  by_cases h0 : k = 0
  · subst h0
    exact Or.inr ⟨[], pos, readExact_zero buf pos, le_refl pos⟩
  · exact Or.inl (readExact_err_of_lt h0 (by omega))

theorem extends_readExact (k : Nat) : Extends (readExact k) := by
  intro buf pos a p h ext
  rcases readExact_ok_elim h with ⟨h0, ha, hp⟩ | ⟨h0, h1, ha, hp⟩
  · subst h0; subst ha; subst hp
    exact readExact_zero _ _
  · subst ha; subst hp
    rw [readExact_ok_of_le h0 (by rw [List.length_append]; omega)]
    rw [List.drop_append_of_le_length (by omega)]
    rw [List.take_append_of_le_length (by rw [List.length_drop]; omega)]

theorem trunc_readExact (k : Nat) : Trunc (readExact k) := by
  intro buf pos a p h n hn
  rcases readExact_ok_elim h with ⟨h0, ha, hp⟩ | ⟨h0, h1, ha, hp⟩
  · subst h0; subst ha; subst hp
    refine ⟨fun _ => readExact_zero _ _, fun hnp => ?_⟩
    exact Or.inr ⟨[], _, readExact_zero _ _, hnp⟩
  · subst ha; subst hp
    constructor
    · intro hpn
      rw [readExact_ok_of_le h0 (by rw [length_take_of_le hn]; omega)]
      rw [List.drop_take, List.take_take]
      rw [min_eq_left (by omega : k ≤ n - pos)]
    · intro hnp
      exact Or.inl (readExact_err_of_lt h0 (by rw [length_take_of_le hn]; omega))

theorem shifts_readExact (k : Nat) : Shifts (readExact k) := by
  intro pre buf pos
  by_cases h0 : k = 0
  · subst h0
    rw [readExact_zero, readExact_zero]
  · by_cases h1 : pos + k ≤ buf.length
    · rw [readExact_ok_of_le h0 h1]
      rw [readExact_ok_of_le h0 (by rw [List.length_append]; omega)]
      have hb : (pre ++ buf).drop (pre.length + pos) = buf.drop pos := by
        rw [← List.drop_drop, List.drop_left]
      rw [hb, Nat.add_assoc]
    · have hrhs : readExact k buf pos = .error .ioUnexpectedEof :=
        readExact_err_of_lt h0 (by omega)
      rw [hrhs]
      exact readExact_err_of_lt h0 (by rw [List.length_append]; omega)

theorem errsIo_readExact (k : Nat) : ErrsIo (readExact k) := by
  intro buf pos e h
  unfold readExact at h
  by_cases h0 : k = 0
  · rw [if_pos h0] at h
    cases h
  · rw [if_neg h0] at h
    by_cases h1 : pos + k ≤ buf.length
    · rw [if_pos h1] at h
      cases h
    · rw [if_neg h1] at h
      cases h
      exact Or.inl rfl

theorem read_u8_ok_of_lt {buf : ByteBuf} {pos : Nat} (h : pos < buf.length) :
    read_u8 buf pos = .ok (buf[pos], pos + 1) := by
  unfold read_u8
  rw [dif_pos h]

theorem read_u8_err_of_le {buf : ByteBuf} {pos : Nat} (h : buf.length ≤ pos) :
    read_u8 buf pos = .error .ioUnexpectedEof := by
  unfold read_u8
  rw [dif_neg (by omega)]

theorem read_u8_ok_elim {buf : ByteBuf} {pos : Nat} {b : Byte} {p : Nat}
    (h : read_u8 buf pos = .ok (b, p)) :
    ∃ hlt : pos < buf.length, b = buf[pos] ∧ p = pos + 1 := by
  unfold read_u8 at h
  by_cases hlt : pos < buf.length
  · rw [dif_pos hlt] at h
    simp only [Except.ok.injEq, Prod.mk.injEq] at h
    exact ⟨hlt, h.1.symm, h.2.symm⟩
  · rw [dif_neg hlt] at h
    cases h

theorem mono_read_u8 : Mono read_u8 := by
  intro buf pos a p h
  rcases read_u8_ok_elim h with ⟨-, -, hp⟩
  omega

theorem pastEnd_read_u8 : PastEnd read_u8 := by
  intro buf pos hpos
  exact Or.inl (read_u8_err_of_le (by omega))

theorem extends_read_u8 : Extends read_u8 := by
  intro buf pos a p h ext
  rcases read_u8_ok_elim h with ⟨hlt, ha, hp⟩
  subst ha; subst hp
  rw [read_u8_ok_of_lt (by rw [List.length_append]; omega)]
  rw [List.getElem_append_left hlt]

theorem trunc_read_u8 : Trunc read_u8 := by
  intro buf pos a p h n hn
  rcases read_u8_ok_elim h with ⟨hlt, ha, hp⟩
  subst ha; subst hp
  constructor
  · intro hpn
    rw [read_u8_ok_of_lt (by rw [length_take_of_le hn]; omega)]
    rw [List.getElem_take]
  · intro hnp
    exact Or.inl (read_u8_err_of_le (by rw [length_take_of_le hn]; omega))

theorem shifts_read_u8 : Shifts read_u8 := by
  intro pre buf pos
  by_cases hlt : pos < buf.length
  · rw [read_u8_ok_of_lt hlt]
    rw [read_u8_ok_of_lt (by rw [List.length_append]; omega)]
    rw [List.getElem_append_right (by omega)]
    have hidx : pre.length + pos - pre.length = pos := by omega
    simp only [hidx, Nat.add_assoc]
  · have hrhs : read_u8 buf pos = .error .ioUnexpectedEof := read_u8_err_of_le (by omega)
    rw [hrhs]
    exact read_u8_err_of_le (by rw [List.length_append]; omega)

theorem errsIo_read_u8 : ErrsIo read_u8 := by
  intro buf pos e h
  unfold read_u8 at h
  by_cases hlt : pos < buf.length
  · rw [dif_pos hlt] at h
    cases h
  · rw [dif_neg hlt] at h
    cases h
    exact Or.inl rfl

theorem move_cursor_eq (k : Nat) (buf : ByteBuf) (pos : Nat) :
    move_cursor k buf pos = .ok ((), pos + k) := rfl

theorem mono_move_cursor (k : Nat) : Mono (move_cursor k) := by
  intro buf pos a p h
  simp only [move_cursor, Except.ok.injEq, Prod.mk.injEq] at h
  omega

theorem pastEnd_move_cursor (k : Nat) : PastEnd (move_cursor k) := by
  intro buf pos _
  exact Or.inr ⟨(), pos + k, rfl, by omega⟩

theorem extends_move_cursor (k : Nat) : Extends (move_cursor k) := by
  intro buf pos a p h ext
  exact h

theorem trunc_move_cursor (k : Nat) : Trunc (move_cursor k) := by
  intro buf pos a p h n hn
  simp only [move_cursor, Except.ok.injEq, Prod.mk.injEq] at h
  refine ⟨fun _ => ?_, fun hnp => Or.inr ⟨(), pos + k, rfl, ?_⟩⟩
  · simp only [move_cursor, Except.ok.injEq, Prod.mk.injEq]
    exact h
  · omega

theorem shifts_move_cursor (k : Nat) : Shifts (move_cursor k) := by
  intro pre buf pos
  simp only [move_cursor]
  rw [Nat.add_assoc]

theorem errsIo_move_cursor (k : Nat) : ErrsIo (move_cursor k) := by
  intro buf pos e h
  cases h

/-! ### Properties of the composite field readers -/

/-- Every successful run of a step ends at or before the end of the
buffer (true for steps that end with a genuine read). -/
def FinalLe {α : Type} (m : DecM α) : Prop :=
  ∀ buf pos a p, m buf pos = .ok (a, p) → p ≤ buf.length

theorem mono_read_u16_be : Mono read_u16_be := by
  unfold read_u16_be
  exact mono_dbind (mono_readExact 2) (fun bs => mono_dpure (beVal bs))

theorem pastEnd_read_u16_be : PastEnd read_u16_be := by
  unfold read_u16_be
  exact pastEnd_dbind (pastEnd_readExact 2) (fun bs => pastEnd_dpure (beVal bs))

theorem extends_read_u16_be : Extends read_u16_be := by
  unfold read_u16_be
  exact extends_dbind (extends_readExact 2) (fun bs => extends_dpure (beVal bs))

theorem trunc_read_u16_be : Trunc read_u16_be := by
  unfold read_u16_be
  exact trunc_dbind (trunc_readExact 2) (fun bs => mono_dpure (beVal bs))
    (fun bs => trunc_dpure (beVal bs)) (fun _ _ _ _ _ _ => pastEnd_dpure _)

theorem shifts_read_u16_be : Shifts read_u16_be := by
  unfold read_u16_be
  exact shifts_dbind (shifts_readExact 2) (fun bs => shifts_dpure (beVal bs))

theorem errsIo_read_u16_be : ErrsIo read_u16_be := by
  unfold read_u16_be
  exact errsIo_dbind (errsIo_readExact 2) (fun bs => errsIo_dpure (beVal bs))

theorem finalLe_read_u16_be : FinalLe read_u16_be := by
  intro buf pos a p h
  unfold read_u16_be at h
  rcases dbind_ok.mp h with ⟨bs, p1, hex, hp⟩
  simp only [dpure, Except.ok.injEq, Prod.mk.injEq] at hp
  rcases readExact_ok_elim hex with ⟨h0, -, -⟩ | ⟨-, hle, -, hp1⟩
  · cases h0
  · omega

theorem mono_read_u64_be : Mono read_u64_be := by
  unfold read_u64_be
  exact mono_dbind (mono_readExact 8) (fun bs => mono_dpure (beVal bs))

theorem pastEnd_read_u64_be : PastEnd read_u64_be := by
  unfold read_u64_be
  exact pastEnd_dbind (pastEnd_readExact 8) (fun bs => pastEnd_dpure (beVal bs))

theorem extends_read_u64_be : Extends read_u64_be := by
  unfold read_u64_be
  exact extends_dbind (extends_readExact 8) (fun bs => extends_dpure (beVal bs))

theorem trunc_read_u64_be : Trunc read_u64_be := by
  unfold read_u64_be
  exact trunc_dbind (trunc_readExact 8) (fun bs => mono_dpure (beVal bs))
    (fun bs => trunc_dpure (beVal bs)) (fun _ _ _ _ _ _ => pastEnd_dpure _)

theorem errsIo_read_u64_be : ErrsIo read_u64_be := by
  unfold read_u64_be
  exact errsIo_dbind (errsIo_readExact 8) (fun bs => errsIo_dpure (beVal bs))

theorem mono_read_string : Mono read_string := by
  unfold read_string
  exact mono_dbind mono_read_u16_be (fun size =>
    mono_dbind (mono_readExact size) (fun s =>
      mono_ite _ (mono_dpure s) (mono_dthrow _)))

theorem pastEnd_read_string : PastEnd read_string := by
  intro buf pos hpos
  unfold read_string read_u16_be
  exact Or.inl (dbind_eq_of_err (dbind_eq_of_err
    (readExact_err_of_lt (by omega) (by omega))))

theorem extends_read_string : Extends read_string := by
  unfold read_string
  exact extends_dbind extends_read_u16_be (fun size =>
    extends_dbind (extends_readExact size) (fun s =>
      extends_ite _ (extends_dpure s) (extends_dthrow _)))

theorem trunc_read_string : Trunc read_string := by
  unfold read_string
  apply trunc_dbind trunc_read_u16_be
  · intro size
    exact mono_dbind (mono_readExact size) (fun s =>
      mono_ite _ (mono_dpure s) (mono_dthrow _))
  · intro size
    apply trunc_dbind (trunc_readExact size)
    · intro s
      exact mono_ite _ (mono_dpure s) (mono_dthrow _)
    · intro s
      exact trunc_ite _ (trunc_dpure s) (trunc_dthrow _)
    · intro buf pos s p hok hlen
      rcases readExact_ok_elim hok with ⟨h0, hs, hp⟩ | ⟨h0, hle, hs, hp⟩
      · subst hs
        rw [if_pos (show isValidUtf8 ([] : ByteBuf) = true from rfl)]
        exact pastEnd_dpure []
      · exfalso
        omega
  · intro buf pos size p h16 hlen
    exact absurd (finalLe_read_u16_be _ _ _ _ h16) (by omega)

theorem shifts_read_string : Shifts read_string := by
  unfold read_string
  exact shifts_dbind shifts_read_u16_be (fun size =>
    shifts_dbind (shifts_readExact size) (fun s =>
      shifts_ite _ (shifts_dpure s) (shifts_dthrow _)))

theorem errsIo_read_string : ErrsIo read_string := by
  unfold read_string
  exact errsIo_dbind errsIo_read_u16_be (fun size =>
    errsIo_dbind (errsIo_readExact size) (fun s =>
      errsIo_ite _ (errsIo_dpure s) errsIo_dthrow_utf8))

theorem finalLe_read_string : FinalLe read_string := by
  intro buf pos s p h
  unfold read_string at h
  rcases dbind_ok.mp h with ⟨size, p1, h16, hrest⟩
  rcases dbind_ok.mp hrest with ⟨bs, p2, hex, hif⟩
  have hple : p = p2 := by
    by_cases hv : isValidUtf8 bs
    · rw [if_pos hv] at hif
      simp only [dpure, Except.ok.injEq, Prod.mk.injEq] at hif
      exact hif.2.symm
    · rw [if_neg hv] at hif
      cases hif
  subst hple
  have h1 : p1 ≤ buf.length := finalLe_read_u16_be _ _ _ _ h16
  rcases readExact_ok_elim hex with ⟨-, -, hp⟩ | ⟨-, hle, -, hp⟩ <;> omega

theorem mono_readVersion (flags : Nat) : Mono (readVersion flags) := by
  unfold readVersion
  cases Nat.land flags TRACK_INFO_VERSIONED
  · exact mono_dpure 1
  · exact mono_dbind mono_read_u8 (fun b => mono_dpure b.val)

theorem pastEnd_readVersion (flags : Nat) : PastEnd (readVersion flags) := by
  unfold readVersion
  cases Nat.land flags TRACK_INFO_VERSIONED
  · exact pastEnd_dpure 1
  · exact pastEnd_dbind pastEnd_read_u8 (fun b => pastEnd_dpure b.val)

theorem extends_readVersion (flags : Nat) : Extends (readVersion flags) := by
  unfold readVersion
  cases Nat.land flags TRACK_INFO_VERSIONED
  · exact extends_dpure 1
  · exact extends_dbind extends_read_u8 (fun b => extends_dpure b.val)

theorem trunc_readVersion (flags : Nat) : Trunc (readVersion flags) := by
  unfold readVersion
  cases Nat.land flags TRACK_INFO_VERSIONED
  · exact trunc_dpure 1
  · exact trunc_dbind trunc_read_u8 (fun b => mono_dpure b.val)
      (fun b => trunc_dpure b.val) (fun _ _ _ _ _ _ => pastEnd_dpure _)

theorem errsIo_readVersion (flags : Nat) : ErrsIo (readVersion flags) := by
  unfold readVersion
  cases Nat.land flags TRACK_INFO_VERSIONED
  · exact errsIo_dpure 1
  · exact errsIo_dbind errsIo_read_u8 (fun b => errsIo_dpure b.val)

theorem mono_readStream : Mono readStream := by
  unfold readStream
  exact mono_dbind mono_read_u8 (fun b => mono_dpure _)

theorem pastEnd_readStream : PastEnd readStream := by
  unfold readStream
  exact pastEnd_dbind pastEnd_read_u8 (fun b => pastEnd_dpure _)

theorem extends_readStream : Extends readStream := by
  unfold readStream
  exact extends_dbind extends_read_u8 (fun b => extends_dpure _)

theorem trunc_readStream : Trunc readStream := by
  unfold readStream
  exact trunc_dbind trunc_read_u8 (fun b => mono_dpure _)
    (fun b => trunc_dpure _) (fun _ _ _ _ _ _ => pastEnd_dpure _)

theorem errsIo_readStream : ErrsIo readStream := by
  unfold readStream
  exact errsIo_dbind errsIo_read_u8 (fun b => errsIo_dpure _)

/-! ### Bundled properties, and the decoder chains -/

/-- The conjunction of the five generic properties; it holds for every
step of the decoding chains and is closed under sequencing. -/
def Good {α : Type} (m : DecM α) : Prop :=
  Mono m ∧ PastEnd m ∧ Trunc m ∧ Extends m ∧ ErrsIo m

theorem good_dbind {α β : Type} {m : DecM α} {f : α → DecM β}
    (hm : Good m) (hf : ∀ a, Good (f a)) : Good (dbind m f) :=
  ⟨mono_dbind hm.1 (fun a => (hf a).1),
   pastEnd_dbind hm.2.1 (fun a => (hf a).2.1),
   trunc_dbind hm.2.2.1 (fun a => (hf a).1) (fun a => (hf a).2.2.1)
     (fun _ _ a _ _ _ => (hf a).2.1),
   extends_dbind hm.2.2.2.1 (fun a => (hf a).2.2.2.1),
   errsIo_dbind hm.2.2.2.2 (fun a => (hf a).2.2.2.2)⟩

theorem good_dpure {α : Type} (a : α) : Good (dpure a) :=
  ⟨mono_dpure a, pastEnd_dpure a, trunc_dpure a, extends_dpure a, errsIo_dpure a⟩

theorem good_ite {α : Type} (c : Prop) [Decidable c] {m1 m2 : DecM α}
    (h1 : Good m1) (h2 : Good m2) : Good (if c then m1 else m2) := by
  by_cases hc : c
  · rw [if_pos hc]; exact h1
  · rw [if_neg hc]; exact h2

theorem good_read_u8 : Good read_u8 :=
  ⟨mono_read_u8, pastEnd_read_u8, trunc_read_u8, extends_read_u8, errsIo_read_u8⟩

theorem good_move_cursor (k : Nat) : Good (move_cursor k) :=
  ⟨mono_move_cursor k, pastEnd_move_cursor k, trunc_move_cursor k,
   extends_move_cursor k, errsIo_move_cursor k⟩

theorem good_read_u64_be : Good read_u64_be :=
  ⟨mono_read_u64_be, pastEnd_read_u64_be, trunc_read_u64_be,
   extends_read_u64_be, errsIo_read_u64_be⟩

theorem good_read_string : Good read_string :=
  ⟨mono_read_string, pastEnd_read_string, trunc_read_string,
   extends_read_string, errsIo_read_string⟩

theorem good_readVersion (flags : Nat) : Good (readVersion flags) :=
  ⟨mono_readVersion flags, pastEnd_readVersion flags, trunc_readVersion flags,
   extends_readVersion flags, errsIo_readVersion flags⟩

theorem good_readStream : Good readStream :=
  ⟨mono_readStream, pastEnd_readStream, trunc_readStream,
   extends_readStream, errsIo_readStream⟩

theorem good_readUrlField : Good readUrlField := by
  unfold readUrlField
  apply good_dbind good_read_u8
  intro hasUrl
  apply good_ite
  · exact good_dbind good_read_string (fun s => good_dpure (some s))
  · apply good_dbind good_read_u8
    intro size
    exact good_dbind (good_move_cursor size.val) (fun _ => good_dpure none)

theorem good_decodeBody : Good decodeBody := by
  unfold decodeBody
  apply good_dbind good_read_u8
  intro value
  apply good_dbind (good_move_cursor 2)
  intro u1
  apply good_dbind (good_readVersion (flagsOf value))
  intro version
  apply good_dbind (good_move_cursor 2)
  intro u2
  apply good_dbind good_read_string
  intro title
  apply good_dbind good_read_string
  intro author
  apply good_dbind good_read_u64_be
  intro len
  apply good_dbind good_read_string
  intro identifier
  apply good_dbind good_readStream
  intro stream
  exact good_dpure _

theorem good_decodeTrackAux : Good decodeTrackAux := by
  unfold decodeTrackAux
  apply good_dbind good_decodeBody
  intro body
  apply good_dbind good_readUrlField
  intro url
  apply good_dbind good_read_string
  intro source
  exact good_dpure _

theorem shifts_readUrlField : Shifts readUrlField := by
  unfold readUrlField
  apply shifts_dbind shifts_read_u8
  intro hasUrl
  apply shifts_ite
  · exact shifts_dbind shifts_read_string (fun s => shifts_dpure (some s))
  · apply shifts_dbind shifts_read_u8
    intro size
    exact shifts_dbind (shifts_move_cursor size.val) (fun _ => shifts_dpure none)

theorem finalLe_decodeTrackAux : FinalLe decodeTrackAux := by
  intro buf pos t p h
  unfold decodeTrackAux at h
  rcases dbind_ok.mp h with ⟨body, p1, hb, h2⟩
  rcases dbind_ok.mp h2 with ⟨url, p2, hu, h3⟩
  rcases dbind_ok.mp h3 with ⟨src, p3, hs, h4⟩
  have hp : p = p3 := by
    simp only [dpure, Except.ok.injEq, Prod.mk.injEq] at h4
    exact h4.2.symm
  subst hp
  exact finalLe_read_string _ _ _ _ hs

/-- The flags value is zero for every possible first byte: the mask
`0xC000_0000` keeps only bits 30 and 31, and a `u8` has none of them. -/
theorem flagsOf_eq_zero (v : Byte) : flagsOf v = 0 := by
  unfold flagsOf
  have h1 : Nat.land v.val 0xC0000000 ≤ v.val := Nat.and_le_left
  rw [Nat.shiftRight_eq_div_pow]
  exact Nat.div_eq_of_lt (lt_of_le_of_lt h1 (lt_trans v.isLt (by norm_num)))

/-- Consequently the version computation never takes the reading
branch: it is the pure step returning 1. -/
theorem readVersion_flagsOf (v : Byte) : readVersion (flagsOf v) = dpure 1 := by
  rw [flagsOf_eq_zero v]
  rfl

/-- Every successfully decoded body has version 1. -/
theorem decodeBody_version {buf : ByteBuf} {pos : Nat} {b : BodyVals} {p : Nat}
    (h : decodeBody buf pos = .ok (b, p)) : b.version = 1 := by
  unfold decodeBody at h
  rcases dbind_ok.mp h with ⟨value, p1, hv, h1⟩
  rcases dbind_ok.mp h1 with ⟨-, p2, hm2, h2⟩
  rw [readVersion_flagsOf value] at h2
  rcases dbind_ok.mp h2 with ⟨ver, p3, hver, h3⟩
  have hver1 : ver = 1 := by
    simp only [dpure, Except.ok.injEq, Prod.mk.injEq] at hver
    exact hver.1.symm
  rcases dbind_ok.mp h3 with ⟨-, p4, hm4, h4⟩
  rcases dbind_ok.mp h4 with ⟨title, p5, ht, h5⟩
  rcases dbind_ok.mp h5 with ⟨author, p6, ha, h6⟩
  rcases dbind_ok.mp h6 with ⟨len, p7, hl, h7⟩
  rcases dbind_ok.mp h7 with ⟨ident, p8, hi, h8⟩
  rcases dbind_ok.mp h8 with ⟨st, p9, hst, h9⟩
  simp only [dpure, Except.ok.injEq, Prod.mk.injEq] at h9
  rw [← h9.1]
  exact hver1

/-- Every successfully decoded track has the version of its body. -/
theorem decodeTrackAux_version {buf : ByteBuf} {pos : Nat} {t : DecodedTrack} {p : Nat}
    (h : decodeTrackAux buf pos = .ok (t, p)) : t.version = 1 := by
  unfold decodeTrackAux at h
  rcases dbind_ok.mp h with ⟨body, p1, hb, h2⟩
  rcases dbind_ok.mp h2 with ⟨url, p2, hu, h3⟩
  rcases dbind_ok.mp h3 with ⟨src, p3, hs, h4⟩
  simp only [dpure, Except.ok.injEq, Prod.mk.injEq] at h4
  rw [← h4.1]
  exact decodeBody_version hb

/-! ### Evaluation lemmas on buffers of known shape -/

/-- The 16-bit big-endian length prefix followed by the payload: the
wire shape read back by `read_string` (faithful to the producer only
for payloads of fewer than 2^16 bytes). -/
def enc16 (s : ByteBuf) : ByteBuf :=
  mkByte (s.length / 256) :: mkByte (s.length % 256) :: s

theorem take_two {α : Type} (a b : α) (t : List α) : List.take 2 (a :: b :: t) = [a, b] := rfl

theorem drop_two {α : Type} (a b : α) (t : List α) : List.drop 2 (a :: b :: t) = t := rfl

theorem beVal_pair (a b : Byte) : beVal [a, b] = a.val * 256 + b.val := by
  unfold beVal
  simp [List.foldl]

theorem mkByte_val_of_lt {n : Nat} (h : n < 256) : (mkByte n).val = n := by
  show n % 256 = n
  exact Nat.mod_eq_of_lt h

theorem length_enc16 (s : ByteBuf) : (enc16 s).length = 2 + s.length := by
  simp [enc16]
  omega

theorem run_at_append {α : Type} {m : DecM α} (hsh : Shifts m) (pre : ByteBuf)
    {tail : ByteBuf} {a : α} {p : Nat} (h : m tail 0 = .ok (a, p)) :
    m (pre ++ tail) pre.length = .ok (a, pre.length + p) := by
  have hs := hsh pre tail 0
  rw [h] at hs
  rw [Nat.add_zero] at hs
  exact hs

/-- Running `read_string` at the start of a length-prefixed payload
followed by anything yields the payload and stops right after it. -/
theorem read_string_enc16 {s : ByteBuf} (rest : ByteBuf) (hlen : s.length < 65536)
    (hv : isValidUtf8 s = true) :
    read_string (enc16 s ++ rest) 0 = .ok (s, 2 + s.length) := by
  have hbuf : enc16 s ++ rest =
      mkByte (s.length / 256) :: mkByte (s.length % 256) :: (s ++ rest) := by
    simp [enc16]
  have hlen2 : (enc16 s ++ rest).length = 2 + s.length + rest.length := by
    rw [List.length_append, length_enc16]
  have h16 : read_u16_be (enc16 s ++ rest) 0 = .ok (s.length, 2) := by
    unfold read_u16_be
    rw [dbind_eq_of_ok (readExact_ok_of_le (by omega) (by rw [hlen2]; omega))]
    rw [hbuf, List.drop_zero, take_two, beVal_pair]
    rw [mkByte_val_of_lt (by omega), mkByte_val_of_lt (by omega)]
    have hdm : s.length / 256 * 256 + s.length % 256 = s.length := by omega
    rw [hdm]
    rfl
  unfold read_string
  rw [dbind_eq_of_ok h16]
  by_cases h0 : s.length = 0
  · have hs : s = [] := List.length_eq_zero.mp h0
    subst hs
    simp only [List.length_nil]
    rw [dbind_eq_of_ok (readExact_zero _ _)]
    rw [if_pos (show isValidUtf8 ([] : ByteBuf) = true from rfl)]
    rfl
  · rw [dbind_eq_of_ok (readExact_ok_of_le h0 (by rw [hlen2]; omega))]
    rw [hbuf, drop_two, List.take_append_of_le_length (le_refl s.length), List.take_length]
    rw [if_pos hv]
    rfl

/-- Running the url stage on a has-url byte of 1 followed by a
length-prefixed url: the url is read and the cursor stops after it. -/
theorem readUrlField_withUrl {url : ByteBuf} (rest : ByteBuf) (hlen : url.length < 65536)
    (hv : isValidUtf8 url = true) :
    readUrlField (mkByte 1 :: (enc16 url ++ rest)) 0 = .ok (some url, 3 + url.length) := by
  unfold readUrlField
  have hlt : 0 < (mkByte 1 :: (enc16 url ++ rest)).length := by simp
  rw [dbind_eq_of_ok (read_u8_ok_of_lt hlt)]
  rw [if_pos (show ((mkByte 1 :: (enc16 url ++ rest))[0]).val = 1 from rfl)]
  have hreads : read_string (mkByte 1 :: (enc16 url ++ rest)) 1 =
      .ok (url, 1 + (2 + url.length)) :=
    run_at_append shifts_read_string [mkByte 1] (read_string_enc16 rest hlen hv)
  have hpos : 1 + (2 + url.length) = 3 + url.length := by omega
  rw [dbind_eq_of_ok hreads, ← hpos]
  rfl

/-- Running the url stage on a has-url byte other than 1: one byte is
read as a skip size, exactly that many bytes are passed over, and the
cursor stops right after the reserved region. -/
theorem readUrlField_noUrl {b0 k : Byte} (pad rest : ByteBuf) (hb0 : b0.val ≠ 1) :
    readUrlField (b0 :: k :: (pad ++ rest)) 0 = .ok (none, 2 + k.val) := by
  unfold readUrlField
  have hlt : 0 < (b0 :: k :: (pad ++ rest)).length := by simp
  rw [dbind_eq_of_ok (read_u8_ok_of_lt hlt)]
  rw [if_neg (show ¬((b0 :: k :: (pad ++ rest))[0]).val = 1 from hb0)]
  have hlt2 : 1 < (b0 :: k :: (pad ++ rest)).length := by simp
  rw [dbind_eq_of_ok (read_u8_ok_of_lt hlt2)]
  rw [dbind_eq_of_ok (move_cursor_eq _ _ _)]
  rfl

/-! ### Inversion lemmas for the public entry points -/

theorem _decode_track_eq_err {input : ByteBuf} {e : DecodeError}
    (h : decodeTrackAux input 0 = .error e) : _decode_track input = .error e := by
  unfold _decode_track
  rw [h]

theorem _decode_track_eq_ok {input : ByteBuf} {t : DecodedTrack} {p : Nat}
    (h : decodeTrackAux input 0 = .ok (t, p)) : _decode_track input = .ok t := by
  unfold _decode_track
  rw [h]

theorem _decode_track_ok_elim {input : ByteBuf} {t : DecodedTrack}
    (h : _decode_track input = .ok t) : ∃ p, decodeTrackAux input 0 = .ok (t, p) := by
  unfold _decode_track at h
  cases haux : decodeTrackAux input 0 with
  | error e2 =>
    rw [haux] at h
    cases h
  | ok tp =>
    obtain ⟨t2, p⟩ := tp
    rw [haux] at h
    cases h
    exact ⟨p, rfl⟩

theorem _decode_track_err_elim {input : ByteBuf} {e : DecodeError}
    (h : _decode_track input = .error e) : decodeTrackAux input 0 = .error e := by
  unfold _decode_track at h
  cases haux : decodeTrackAux input 0 with
  | error e2 =>
    rw [haux] at h
    cases h
    exact rfl
  | ok tp =>
    obtain ⟨t2, p⟩ := tp
    rw [haux] at h
    cases h

/-- The binary decoder never produces the base64 error. -/
theorem _decode_track_errsIo {input : ByteBuf} {e : DecodeError}
    (h : _decode_track input = .error e) :
    e = DecodeError.ioUnexpectedEof ∨ e = DecodeError.parseUtf8 :=
  good_decodeTrackAux.2.2.2.2 _ _ _ (_decode_track_err_elim h)

/-! ### Concrete buffers used by the claims -/

/-- The example buffer of the spec: header byte with the versioned bit
clear, 2 skipped bytes, 2 skipped bytes, title "Test", author
"Author", 64-bit big-endian 180000, identifier "abc", stream byte 0,
has-url byte 0, skip length 0, source "local". -/
def exampleBuf : ByteBuf := byteList
  [0x00, 0, 0, 0, 0,
   0, 4, 84, 101, 115, 116,
   0, 6, 65, 117, 116, 104, 111, 114,
   0, 0, 0, 0, 0, 2, 0xBF, 0x20,
   0, 3, 97, 98, 99,
   0, 0, 0,
   0, 5, 108, 111, 99, 97, 108]

/-- The track the example buffer describes (strings as UTF-8 bytes:
title "Test", author "Author", identifier "abc", source "local"). -/
def exampleTrack : DecodedTrack :=
  DecodedTrack.mk 1 (byteList [84, 101, 115, 116]) (byteList [65, 117, 116, 104, 111, 114])
    180000 (byteList [97, 98, 99]) false none (byteList [108, 111, 99, 97, 108])

/-- A buffer that is well formed under the versioned layout the spec
documents: header byte 0x40 (bit 30 of the big-endian 32-bit header
word, the versioned flag), two framing bytes, version byte 2, two
reserved bytes, then title "A", author "B", length 5, identifier "C",
stream 0, has-url 0, skip length 0, source "D". -/
def versionedBuf : ByteBuf := byteList
  [0x40, 0, 0, 2, 0, 0, 0, 1, 65, 0, 1, 66, 0, 0, 0, 0, 0, 0, 0, 5,
   0, 1, 67, 0, 0, 0, 0, 1, 68]

/-- The example buffer truncated right after its stream byte: the
part of the wire format read by `decodeBody`. -/
def examplePre : ByteBuf := byteList
  [0x00, 0, 0, 0, 0,
   0, 4, 84, 101, 115, 116,
   0, 6, 65, 117, 116, 104, 111, 114,
   0, 0, 0, 0, 0, 2, 0xBF, 0x20,
   0, 3, 97, 98, 99,
   0]

/-- The body fields encoded by `examplePre`. -/
def exampleBody : BodyVals :=
  BodyVals.mk 1 (byteList [84, 101, 115, 116]) (byteList [65, 117, 116, 104, 111, 114])
    180000 (byteList [97, 98, 99]) false

/-! ### The claims -/

/-- Claim C1 (code bug).  The claim asks that a buffer with the
versioned flag bit set consume one version byte and report it
verbatim.  `versionedBuf` carries the versioned flag (header byte
0x40, bit 30 of the big-endian header word) and version byte 2, and is
well formed under the versioned layout, so under the claim it would
decode to a track with version 2, title "A", author "B", length 5,
identifier "C", source "D".  The code instead computes
`flags = ((i64::from(first_byte) & 0xC000_0000) >> 30) = 0`, never
reads the version byte, misaligns every following field and fails with
`UnexpectedEof`. -/
theorem c1_versioned_buffer_misdecodes :
    decode_track versionedBuf = .error .ioUnexpectedEof := by decide

/-- Claim C2 (confirmed).  For every byte value the flags computation
`((i64::from(v) & 0xC000_0000) >> 30)` is zero, therefore the version
computation is the pure step returning 1 (the reading branch is
unreachable), and every successfully decoded track has version 1. -/
theorem c2_flags_zero_version_one :
    (∀ v : Byte, flagsOf v = 0) ∧
    (∀ v : Byte, readVersion (flagsOf v) = dpure 1) ∧
    (∀ (input : ByteBuf) (t : DecodedTrack), decode_track input = .ok t → t.version = 1) := by
  refine ⟨flagsOf_eq_zero, readVersion_flagsOf, ?_⟩
  intro input t h
  rcases _decode_track_ok_elim h with ⟨p, haux⟩
  exact decodeTrackAux_version haux

theorem c2_witness :
    flagsOf (mkByte 0x40) = 0 ∧ exampleTrack.version = 1 :=
  ⟨c2_flags_zero_version_one.1 (mkByte 0x40),
   c2_flags_zero_version_one.2.2 exampleBuf exampleTrack (by decide)⟩

/-- Claim C3 (confirmed).  If a buffer decodes successfully with the
cursor ending exactly at the end of the buffer, then every strict
prefix of it fails to decode with the `UnexpectedEof` io error — never
with a successful (possibly different) track. -/
theorem c3_strict_prefix_eof :
    ∀ (buf : ByteBuf) (t : DecodedTrack),
      decodeTrackAux buf 0 = .ok (t, buf.length) →
      ∀ n, n < buf.length → decode_track (buf.take n) = .error .ioUnexpectedEof := by
  intro buf t h n hn
  have htr := good_decodeTrackAux.2.2.1 _ _ _ _ h n (le_of_lt hn)
  rcases htr.2 hn with herr | ⟨b, q, hok, hq⟩
  · exact _decode_track_eq_err herr
  · exfalso
    have hle := finalLe_decodeTrackAux _ _ _ _ hok
    rw [length_take_of_le (le_of_lt hn)] at hle
    omega

theorem c3_witness :
    decodeTrackAux exampleBuf 0 = .ok (exampleTrack, exampleBuf.length) ∧
    (5 : Nat) < exampleBuf.length ∧
    decode_track (exampleBuf.take 5) = .error .ioUnexpectedEof :=
  ⟨by decide, by decide, c3_strict_prefix_eof exampleBuf exampleTrack (by decide) 5 (by decide)⟩

/-- Claim C4 (corrected), counterexample.  The skip operation
(`move_cursor!`) applied to an empty buffer with a skip amount of 2
does not fail even though 2 exceeds the 0 remaining bytes: it
succeeds and silently leaves the cursor at position 2, past the buffer
length, contradicting the claim that this is a decode error. -/
theorem c4_counterexample :
    move_cursor 2 ([] : ByteBuf) 0 = .ok ((), 2) ∧ ([] : ByteBuf).length < 0 + 2 :=
  ⟨rfl, by decide⟩

/-- Claim C4 (corrected), amended.  The skip operation never fails: it
unconditionally sets the cursor to `pos + n`, even past the buffer
length.  However, whenever the new position lies past the end of the
buffer, the next read fails with `UnexpectedEof`, so an over-long skip
always surfaces as a decode error at the following read rather than
being silently accepted. -/
theorem c4_skip_unchecked :
    ∀ (k : Nat) (buf : ByteBuf) (pos : Nat),
      move_cursor k buf pos = .ok ((), pos + k) ∧
      (buf.length < pos + k → read_u8 buf (pos + k) = .error .ioUnexpectedEof) := by
  intro k buf pos
  exact ⟨rfl, fun h => read_u8_err_of_le (by omega)⟩

theorem c4_witness :
    move_cursor 2 ([] : ByteBuf) 0 = .ok ((), 0 + 2) ∧
    read_u8 ([] : ByteBuf) (0 + 2) = .error .ioUnexpectedEof :=
  ⟨(c4_skip_unchecked 2 [] 0).1, (c4_skip_unchecked 2 [] 0).2 (by decide)⟩

/-- Claim C5 (confirmed).  The concrete example buffer decodes to the
track with version 1, title "Test", author "Author", length 180000,
identifier "abc", stream false, no url and source "local". -/
theorem c5_example_buffer : decode_track exampleBuf = .ok exampleTrack := by decide

/-- Claim C6 (confirmed).  When the has-url byte is not 1, the url
stage reads one byte as a skip amount k, passes over exactly k bytes
and yields no url; and for a common prefix `pre` that the body decoder
consumes exactly, the buffer carrying a url (has-url byte 1 followed
by a length-prefixed url) and the buffer carrying none (any non-1
has-url byte, a skip byte k and k padding bytes), both followed by the
same encoded source, both decode successfully and agree on the source
field. -/
theorem c6_url_field_alignment :
    ∀ (b0 k : Byte) (pad rest : ByteBuf), b0.val ≠ 1 →
      readUrlField (b0 :: k :: (pad ++ rest)) 0 = .ok (none, 2 + k.val) ∧
      ∀ (pre : ByteBuf) (bv : BodyVals) (url src : ByteBuf),
        decodeBody pre 0 = .ok (bv, pre.length) →
        url.length < 65536 → isValidUtf8 url = true →
        src.length < 65536 → isValidUtf8 src = true →
        pad.length = k.val →
        ∃ t1 t2 : DecodedTrack,
          decode_track (pre ++ (mkByte 1 :: (enc16 url ++ enc16 src))) = .ok t1 ∧
          decode_track (pre ++ (b0 :: k :: (pad ++ enc16 src))) = .ok t2 ∧
          t1.url = some url ∧ t2.url = none ∧ t1.source = src ∧ t2.source = src := by
  intro b0 k pad rest hb0
  constructor
  · exact readUrlField_noUrl pad rest hb0
  · intro pre bv url src hbody hu1 hu2 hs1 hs2 hpad
    have hsrc0 : read_string (enc16 src) 0 = .ok (src, 2 + src.length) := by
      have h := read_string_enc16 [] hs1 hs2
      rwa [List.append_nil] at h
    have hbody1 : decodeBody (pre ++ (mkByte 1 :: (enc16 url ++ enc16 src))) 0 =
        .ok (bv, pre.length) :=
      good_decodeBody.2.2.2.1 _ _ _ _ hbody _
    have hurl1 : readUrlField (pre ++ (mkByte 1 :: (enc16 url ++ enc16 src))) pre.length =
        .ok (some url, pre.length + (3 + url.length)) :=
      run_at_append shifts_readUrlField pre (readUrlField_withUrl (enc16 src) hu1 hu2)
    have hassoc1 : pre ++ (mkByte 1 :: (enc16 url ++ enc16 src)) =
        (pre ++ (mkByte 1 :: enc16 url)) ++ enc16 src := by
      simp [List.append_assoc]
    have hsrc1 := run_at_append shifts_read_string (pre ++ (mkByte 1 :: enc16 url)) hsrc0
    rw [← hassoc1] at hsrc1
    have hlen1 : (pre ++ (mkByte 1 :: enc16 url)).length = pre.length + (3 + url.length) := by
      rw [List.length_append, List.length_cons, length_enc16]
      omega
    rw [hlen1] at hsrc1
    have haux1 : decodeTrackAux (pre ++ (mkByte 1 :: (enc16 url ++ enc16 src))) 0 =
        .ok (DecodedTrack.mk bv.version bv.title bv.author bv.length bv.identifier bv.stream
          (some url) src, pre.length + (3 + url.length) + (2 + src.length)) := by
      unfold decodeTrackAux
      rw [dbind_eq_of_ok hbody1, dbind_eq_of_ok hurl1, dbind_eq_of_ok hsrc1]
      rfl
    have hbody2 : decodeBody (pre ++ (b0 :: k :: (pad ++ enc16 src))) 0 =
        .ok (bv, pre.length) :=
      good_decodeBody.2.2.2.1 _ _ _ _ hbody _
    have hurl2 : readUrlField (pre ++ (b0 :: k :: (pad ++ enc16 src))) pre.length =
        .ok (none, pre.length + (2 + k.val)) :=
      run_at_append shifts_readUrlField pre (readUrlField_noUrl pad (enc16 src) hb0)
    have hassoc2 : pre ++ (b0 :: k :: (pad ++ enc16 src)) =
        (pre ++ (b0 :: k :: pad)) ++ enc16 src := by
      simp [List.append_assoc]
    have hsrc2 := run_at_append shifts_read_string (pre ++ (b0 :: k :: pad)) hsrc0
    rw [← hassoc2] at hsrc2
    have hlen2 : (pre ++ (b0 :: k :: pad)).length = pre.length + (2 + k.val) := by
      rw [List.length_append, List.length_cons, List.length_cons]
      omega
    rw [hlen2] at hsrc2
    have haux2 : decodeTrackAux (pre ++ (b0 :: k :: (pad ++ enc16 src))) 0 =
        .ok (DecodedTrack.mk bv.version bv.title bv.author bv.length bv.identifier bv.stream
          none src, pre.length + (2 + k.val) + (2 + src.length)) := by
      unfold decodeTrackAux
      rw [dbind_eq_of_ok hbody2, dbind_eq_of_ok hurl2, dbind_eq_of_ok hsrc2]
      rfl
    exact ⟨_, _, _decode_track_eq_ok haux1, _decode_track_eq_ok haux2, rfl, rfl, rfl, rfl⟩

theorem c6_witness :
    readUrlField (mkByte 0 :: mkByte 1 :: (byteList [0] ++ [])) 0 =
      .ok (none, 2 + (mkByte 1).val) ∧
    ∃ t1 t2 : DecodedTrack,
      decode_track (examplePre ++ (mkByte 1 ::
        (enc16 (byteList [117]) ++ enc16 (byteList [108, 111, 99, 97, 108])))) = .ok t1 ∧
      decode_track (examplePre ++ (mkByte 0 :: mkByte 1 ::
        (byteList [0] ++ enc16 (byteList [108, 111, 99, 97, 108])))) = .ok t2 ∧
      t1.url = some (byteList [117]) ∧ t2.url = none ∧
      t1.source = byteList [108, 111, 99, 97, 108] ∧
      t2.source = byteList [108, 111, 99, 97, 108] := by
  have h := c6_url_field_alignment (mkByte 0) (mkByte 1) (byteList [0]) [] (by decide)
  exact ⟨h.1, h.2 examplePre exampleBody (byteList [117]) (byteList [108, 111, 99, 97, 108])
    (by decide) (by decide) (by decide) (by decide) (by decide) (by decide)⟩

/-- Claim C7 (confirmed).  For a length-prefixed string read whose
declared payload is fully present but is not valid UTF-8, `read_string`
fails with the `ParseUtf8` error; when the declared payload overruns
the buffer it fails with the `UnexpectedEof` io error; the two errors
are distinct.  Every string field of the decoder (title, author,
identifier, url, source) is read through `read_string`. -/
theorem c7_invalid_utf8_distinct :
    ∀ (buf : ByteBuf) (pos size : Nat),
      read_u16_be buf pos = .ok (size, pos + 2) →
      ((pos + 2 + size ≤ buf.length →
          isValidUtf8 ((buf.drop (pos + 2)).take size) = false →
          read_string buf pos = .error .parseUtf8) ∧
       (buf.length < pos + 2 + size → read_string buf pos = .error .ioUnexpectedEof)) ∧
      DecodeError.parseUtf8 ≠ DecodeError.ioUnexpectedEof := by
  intro buf pos size h16
  refine ⟨⟨?_, ?_⟩, by decide⟩
  · intro hle hinv
    unfold read_string
    rw [dbind_eq_of_ok h16]
    by_cases h0 : size = 0
    · subst h0
      rw [List.take_zero] at hinv
      exact absurd hinv (by decide)
    · rw [dbind_eq_of_ok (readExact_ok_of_le h0 hle)]
      rw [if_neg (by simp [hinv])]
      rfl
  · intro hlt
    unfold read_string
    rw [dbind_eq_of_ok h16]
    have h0 : size ≠ 0 := by
      intro h0
      subst h0
      have hfin := finalLe_read_u16_be _ _ _ _ h16
      omega
    exact dbind_eq_of_err (readExact_err_of_lt h0 (by omega))

theorem c7_witness :
    read_string (byteList [0, 1, 255]) 0 = .error .parseUtf8 ∧
    read_string (byteList [0, 1]) 0 = .error .ioUnexpectedEof := by
  have h1 := c7_invalid_utf8_distinct (byteList [0, 1, 255]) 0 1 (by decide)
  have h2 := c7_invalid_utf8_distinct (byteList [0, 1]) 0 1 (by decide)
  exact ⟨h1.1.1 (by decide) (by decide), h2.1.2 (by decide)⟩

/-- Claim C8 (confirmed).  The base64 entry point fails with the
distinct `Base64Error` exactly when the base64 decoding of the input
fails, in which case no binary parsing result is produced; and for
every input whose base64 decoding succeeds it returns exactly
`decode_track` of the decoded bytes. -/
theorem c8_base64_delegation :
    ∀ s : List Char,
      (base64_decode s = none → decode_track_base64 s = .error .base64Error) ∧
      (∀ bs, base64_decode s = some bs → decode_track_base64 s = decode_track bs) ∧
      (decode_track_base64 s = .error .base64Error ↔ base64_decode s = none) := by
  intro s
  refine ⟨?_, ?_, ?_, ?_⟩
  · intro h
    unfold decode_track_base64 _decode_track_base64
    rw [h]
  · intro bs h
    unfold decode_track_base64 _decode_track_base64
    rw [h]
  · intro h
    cases hb : base64_decode s with
    | none => rfl
    | some bs =>
      exfalso
      unfold decode_track_base64 _decode_track_base64 at h
      rw [hb] at h
      rcases _decode_track_errsIo h with h1 | h1 <;> cases h1
  · intro h
    unfold decode_track_base64 _decode_track_base64
    rw [h]

theorem c8_witness :
    decode_track_base64 [Char.ofNat 33] = .error .base64Error ∧
    decode_track_base64 [Char.ofNat 65, Char.ofNat 65, Char.ofNat 65, Char.ofNat 65] =
      decode_track (byteList [0, 0, 0]) :=
  ⟨(c8_base64_delegation _).1 (by decide),
   (c8_base64_delegation _).2.1 (byteList [0, 0, 0]) (by decide)⟩

/-- Claim C9 (confirmed).  The stream flag is decoded from one byte:
when a byte remains, the stage succeeds, advances by one and yields
true exactly when the byte is 1 (so 0 and 2 through 255 all give
false); when no byte remains it fails with the `UnexpectedEof` io
error, and no other error is possible. -/
theorem c9_stream_byte :
    ∀ (buf : ByteBuf) (pos : Nat),
      (∀ h : pos < buf.length,
        readStream buf pos = .ok (decide (buf[pos].val = 1), pos + 1)) ∧
      (buf.length ≤ pos → readStream buf pos = .error .ioUnexpectedEof) ∧
      (∀ b : Byte, (decide (b.val = 1) = true ↔ b.val = 1)) := by
  intro buf pos
  refine ⟨?_, ?_, fun b => by simp⟩
  · intro h
    unfold readStream
    rw [dbind_eq_of_ok (read_u8_ok_of_lt h)]
    rfl
  · intro h
    unfold readStream
    exact dbind_eq_of_err (read_u8_err_of_le h)

theorem c9_witness :
    readStream (byteList [2]) 0 = .ok (false, 1) ∧
    readStream (byteList [1]) 0 = .ok (true, 1) ∧
    readStream ([] : ByteBuf) 0 = .error .ioUnexpectedEof :=
  ⟨(c9_stream_byte (byteList [2]) 0).1 (by decide),
   (c9_stream_byte (byteList [1]) 0).1 (by decide),
   (c9_stream_byte [] 0).2.1 (by decide)⟩

/-- Claim C10 (confirmed).  A successful decode depends only on the
consumed part of the buffer: appending arbitrary bytes still decodes
successfully to the field-for-field identical track, consuming the
same number of bytes, which is at most the original length — trailing
bytes are ignored, never an error. -/
theorem c10_trailing_bytes :
    ∀ (buf : ByteBuf) (t : DecodedTrack),
      decode_track buf = .ok t →
      ∀ ext : ByteBuf,
        decode_track (buf ++ ext) = .ok t ∧
        ∃ p, p ≤ buf.length ∧ decodeTrackAux buf 0 = .ok (t, p) ∧
          decodeTrackAux (buf ++ ext) 0 = .ok (t, p) := by
  intro buf t h ext
  rcases _decode_track_ok_elim h with ⟨p, haux⟩
  have hext := good_decodeTrackAux.2.2.2.1 _ _ _ _ haux ext
  exact ⟨_decode_track_eq_ok hext, p, finalLe_decodeTrackAux _ _ _ _ haux, haux, hext⟩

theorem c10_witness :
    decode_track (exampleBuf ++ byteList [99, 100]) = .ok exampleTrack ∧
    ∃ p, p ≤ exampleBuf.length ∧ decodeTrackAux exampleBuf 0 = .ok (exampleTrack, p) ∧
      decodeTrackAux (exampleBuf ++ byteList [99, 100]) 0 = .ok (exampleTrack, p) :=
  c10_trailing_bytes exampleBuf exampleTrack (by decide) (byteList [99, 100])

end Lavalink
